import Mathlib

/-!
Verification of the bracket scanner in `braces.py` / `find_unmatched_braces.py`
(repository `find_unmatched`).

The scanner reads lines of text and, for a configured collection of
(open, close) symbol pairs, reports the positions of unmatched opens and
unmatched closes.  We embed the Python code shallowly:

* positions are 1-indexed `(line, column)` pairs of naturals;
* the Python dicts `opens`, `closes`, `open_for` of `check_file` are modelled
  by indexing the underlying list objects by the index of the pair that
  created them.  In the Python source, `open_for[close_symbol]` aliases the
  very list object `opens[open_symbol]` created in the same loop iteration,
  and a later pair with the same open symbol rebinds `opens[open_symbol]`
  without updating the alias; indexing objects by creating pair reproduces
  this exactly.  The comparison `open_for.get(sym, None) == opens[sym]` is
  Python *value* equality of lists, modelled by equality of the two stacks'
  contents.
* The set of pairs is passed as a `List`, standing for one iteration order of
  the Python set (the claims we prove are either about singleton pair sets or
  insensitive to that order).
-/

namespace FindUnmatched

/-- A 1-indexed (line, column) position, as produced by the scanner. -/
abbrev Pos := Nat × Nat

/-- The mutable scan state of `check_file` in `braces.py`: one open-stack list
object and one unmatched-closes list object per configured pair (indexed by
the position of the pair in the iteration order of `open_close_pairs`). -/
structure ScanState where
  openStacks : List (List Pos)
  closeLists : List (List Pos)
deriving DecidableEq, Repr

/-- Index of the pair whose *open* symbol is `s`: the dict entry `opens[s]`
refers to the list object created by the last pair with first component `s`. -/
def openIdx : List (Char × Char) → Char → Option Nat
  | [], _ => none
  | pr :: rest, s =>
    match openIdx rest s with
    | some k => some (k + 1)
    | none => if pr.1 = s then some 0 else none

/-- Index of the pair whose *close* symbol is `s`: the dict entries
`closes[s]` and `open_for[s]` refer to the list objects created by the last
pair with second component `s`. -/
def closeIdx : List (Char × Char) → Char → Option Nat
  | [], _ => none
  | pr :: rest, s =>
    match closeIdx rest s with
    | some k => some (k + 1)
    | none => if pr.2 = s then some 0 else none

/-- One character step of the scan loop of `check_file` (`braces.py`,
lines 69–80).  `p` is the position `(line_number, column)` of the character
`c`.  The branch structure mirrors the Python source:

* `sym in opens and open_for.get(sym, None) == opens[sym]` — both lookups
  succeed and the two list objects are equal *as values*; then the toggle
  branch appends to or pops `opens[sym]`;
* `elif sym in opens` — push the position unconditionally;
* `elif sym in closes` — pop `open_for[sym]` when non-empty, else append the
  position to `closes[sym]`. -/
def stepChar (ps : List (Char × Char)) (σ : ScanState) (p : Pos) (c : Char) :
    ScanState :=
  match openIdx ps c, closeIdx ps c with
  | some i, some j =>
    if σ.openStacks.getD j [] = σ.openStacks.getD i [] then
      if (σ.openStacks.getD i []).isEmpty then
        { σ with openStacks := σ.openStacks.set i (σ.openStacks.getD i [] ++ [p]) }
      else
        { σ with openStacks := σ.openStacks.set i (σ.openStacks.getD i []).dropLast }
    else
      { σ with openStacks := σ.openStacks.set i (σ.openStacks.getD i [] ++ [p]) }
  | some i, none =>
    { σ with openStacks := σ.openStacks.set i (σ.openStacks.getD i [] ++ [p]) }
  | none, some j =>
    if 0 < (σ.openStacks.getD j []).length then
      { σ with openStacks := σ.openStacks.set j (σ.openStacks.getD j []).dropLast }
    else
      { σ with closeLists := σ.closeLists.set j (σ.closeLists.getD j [] ++ [p]) }
  | none, none => σ

/-- The inner `for sym in line` loop: `col` is the value of Python's `column`
variable before the next increment, so the next character sits at `col + 1`. -/
def scanFrom (step : ScanState → Pos → Char → ScanState) (ln : Nat) :
    Nat → ScanState → List Char → ScanState
  | _, σ, [] => σ
  | col, σ, c :: cs => scanFrom step ln (col + 1) (step σ (ln, col + 1) c) cs

/-- The outer `for line in f` loop: `ln` is the value of Python's
`line_number` before the next increment. -/
def scanLines (step : ScanState → Pos → Char → ScanState) :
    Nat → ScanState → List (List Char) → ScanState
  | _, σ, [] => σ
  | ln, σ, l :: ls => scanLines step (ln + 1) (scanFrom step (ln + 1) 0 σ l) ls

/-- The fresh state: one empty open stack and one empty unmatched-closes list
per configured pair. -/
def initState (n : Nat) : ScanState :=
  ⟨List.replicate n [], List.replicate n []⟩

/-- Read the list object designated by an optional pair index (the dict
lookups in the final comprehension of `check_file`). -/
def idxGet (st : List (List Pos)) : Option Nat → List Pos
  | some i => st.getD i []
  | none => []

/-- `check_file` of `braces.py` (lines 36–82): scan the lines and return, per
configured pair, the pair together with its unmatched opens and unmatched
closes, via the comprehension
`{ (o, c) : (opens[o], closes[c]) for o, c in open_close_pairs }`. -/
def check_file (f : List (List Char)) (ps : List (Char × Char)) :
    List ((Char × Char) × (List Pos × List Pos)) :=
  let σ := scanLines (stepChar ps) 0 (initState ps.length) f
  ps.map fun pr =>
    (pr, (idxGet σ.openStacks (openIdx ps pr.1), idxGet σ.closeLists (closeIdx ps pr.2)))

/-- The open symbol aliased to a close symbol in `find_unmatched_braces.py`:
there `open_for[close_symbol] = open_symbol` stores the *symbol*, not the
list object, so lookups go through the current binding of `opens`. -/
def openForSym : List (Char × Char) → Char → Option Char
  | [], _ => none
  | pr :: rest, s =>
    match openForSym rest s with
    | some o => some o
    | none => if pr.2 = s then some pr.1 else none

/-- One character step of `check_file` in `find_unmatched_braces.py`
(lines 33–41): an open symbol is pushed unconditionally (no self-matching
toggle); a close symbol pops `opens[open_for[sym]]` when non-empty, else is
appended to `closes[sym]`. -/
def stepChar2 (ps : List (Char × Char)) (σ : ScanState) (p : Pos) (c : Char) :
    ScanState :=
  match openIdx ps c with
  | some i => { σ with openStacks := σ.openStacks.set i (σ.openStacks.getD i [] ++ [p]) }
  | none =>
    match closeIdx ps c with
    | some j =>
      match (openForSym ps c).bind (openIdx ps) with
      | some i =>
        if 0 < (σ.openStacks.getD i []).length then
          { σ with openStacks := σ.openStacks.set i (σ.openStacks.getD i []).dropLast }
        else
          { σ with closeLists := σ.closeLists.set j (σ.closeLists.getD j [] ++ [p]) }
      | none => σ
    | none => σ

/-- `check_file` of `find_unmatched_braces.py` (lines 9–43); the loop shape
and the final comprehension are identical to `braces.py`, only the character
step differs. -/
def check_file2 (f : List (List Char)) (ps : List (Char × Char)) :
    List ((Char × Char) × (List Pos × List Pos)) :=
  let σ := scanLines (stepChar2 ps) 0 (initState ps.length) f
  ps.map fun pr =>
    (pr, (idxGet σ.openStacks (openIdx ps pr.1), idxGet σ.closeLists (closeIdx ps pr.2)))

/-- The scan loops presented as one pass over the list of events
`(position, character)` of the file, in scan order.  `runEvents` is the
common recursion of `scanFrom`/`scanLines`, made explicit so that theorems
can reason about the sequence of characters seen. -/
def runEvents (step : ScanState → Pos → Char → ScanState) :
    ScanState → List (Pos × Char) → ScanState
  | σ, [] => σ
  | σ, e :: es => runEvents step (step σ e.1 e.2) es

/-- The events of one line `ln` whose already-consumed prefix has length
`col`: the next character sits at column `col + 1`. -/
def lineEvents (ln : Nat) : Nat → List Char → List (Pos × Char)
  | _, [] => []
  | col, c :: cs => ((ln, col + 1), c) :: lineEvents ln (col + 1) cs

/-- The events of a whole file whose already-consumed prefix has `ln` lines:
the next line is line `ln + 1`. -/
def fileEvents : Nat → List (List Char) → List (Pos × Char)
  | _, [] => []
  | ln, l :: ls => lineEvents (ln + 1) 0 l ++ fileEvents (ln + 1) ls

/-- Spec §4.2 rule 2 as stated, for one ordinary pair `(o, c)` with state
`(open stack, unmatched closes)`: an occurrence of `o` is pushed
unconditionally; an occurrence of `c` pops the stack when non-empty and is
appended to the unmatched closes when the stack is empty; other characters
are ignored. -/
def specOrdinaryStep (o c : Char) (st : List Pos × List Pos) (p : Pos)
    (ch : Char) : List Pos × List Pos :=
  if ch = o then (st.1 ++ [p], st.2)
  else if ch = c then
    (if st.1.isEmpty then (st.1, st.2 ++ [p]) else (st.1.dropLast, st.2))
  else st

/-- The full ordinary-pair scan described by the spec: fold
`specOrdinaryStep` over all events of the file, starting from empty state. -/
def specOrdinaryScan (o c : Char) (f : List (List Char)) :
    List Pos × List Pos :=
  (fileEvents 0 f).foldl (fun st e => specOrdinaryStep o c st e.1 e.2) ([], [])

/-- Spec §4.2 rule 1 as stated, for one self-matching pair `(s, s)`: an
occurrence of `s` is pushed when the stack is empty (tentative open) and pops
the stack when it is non-empty; other characters are ignored. -/
def specSelfStep (s : Char) (st : List Pos) (p : Pos) (ch : Char) : List Pos :=
  if ch = s then (if st.isEmpty then st ++ [p] else st.dropLast) else st

/-- The full self-matching-pair scan described by the spec. -/
def specSelfScan (s : Char) (f : List (List Char)) : List Pos :=
  (fileEvents 0 f).foldl (fun st e => specSelfStep s st e.1 e.2) []

/-- Positions of the occurrences of the symbol `s` in an event list, in scan
order. -/
def occOf (s : Char) (es : List (Pos × Char)) : List Pos :=
  (es.filter (fun e => e.2 == s)).map Prod.fst

/-- Positions of the occurrences of the symbol `s` in a file, in scan
order. -/
def occPositions (s : Char) (f : List (List Char)) : List Pos :=
  occOf s (fileEvents 0 f)

/-- Strict lexicographic order on positions: earlier line, or same line and
earlier column.  This is the order in which the scan visits positions. -/
def posLt (a b : Pos) : Prop :=
  a.1 < b.1 ∨ (a.1 = b.1 ∧ a.2 < b.2)

/-- Non-strict lexicographic order on positions. -/
def posLe (a b : Pos) : Prop :=
  a.1 < b.1 ∨ (a.1 = b.1 ∧ a.2 ≤ b.2)

instance (a b : Pos) : Decidable (posLt a b) := by unfold posLt; infer_instance

instance (a b : Pos) : Decidable (posLe a b) := by unfold posLe; infer_instance

/-- The position immediately after `p` in scan order. -/
def succPos (p : Pos) : Pos := (p.1, p.2 + 1)

/-- A report entry `(symbol, line, column)` as produced by
`condense_to_list`. -/
abbrev Entry := Char × Nat × Nat

/-- The sort key of `sorted(..., key = lambda n : n[1:])`: the `(line,
column)` part of an entry, with the symbol excluded. -/
def entryKey (e : Entry) : Pos := (e.2.1, e.2.2)

/-- The concatenation step of `condense_to_list`: for every pair, its
unmatched opens as `(open, line, col)` entries followed by its unmatched
closes as `(close, line, col)` entries, all pairs concatenated in mapping
order (`functools.reduce(operator.add, ...)` over the per-pair lists). -/
def flattenHits (hd : List ((Char × Char) × (List Pos × List Pos))) :
    List Entry :=
  hd.flatMap fun pr =>
    pr.2.1.map (fun p => (pr.1.1, p.1, p.2)) ++
      pr.2.2.map (fun p => (pr.1.2, p.1, p.2))

/-- Insertion into a sorted-by-key list, placing the new entry before the
first entry whose key is `≥` its own; folding it from the right is the
unique stable sort by `entryKey`, which models Python's stable `sorted`. -/
def insertEntry (e : Entry) : List Entry → List Entry
  | [] => [e]
  | e' :: es =>
    if posLe (entryKey e) (entryKey e') then e :: e' :: es
    else e' :: insertEntry e es

/-- Stable sort of entries by `(line, column)`, modelling Python's
`sorted(..., key = lambda n : n[1:])`. -/
def sortEntries : List Entry → List Entry
  | [] => []
  | e :: es => insertEntry e (sortEntries es)

/-- `condense_to_list` of `braces.py` (lines 95–107).  On an empty mapping
`functools.reduce` is applied to an empty sequence with no initial value and
raises `TypeError`; this failure is modelled by `none`.  On a non-empty
mapping the per-pair entry lists are concatenated and stably sorted by
`(line, column)`. -/
def condense_to_list (hd : List ((Char × Char) × (List Pos × List Pos))) :
    Option (List Entry) :=
  match hd with
  | [] => none
  | _ :: _ => some (sortEntries (flattenHits hd))

/-- `list_to_pairs` of `braces.py` (lines 84–93), Python 2 semantics:
`range(len(l)/2)` uses floor division, so element `2*i` is paired with
element `2*i+1` for `i < len(l) / 2` and a trailing element of an odd-length
list is silently dropped; the set comprehension is modelled by `Finset`. -/
def list_to_pairs (l : List Char) : Finset (Char × Char) :=
  ((List.range (l.length / 2)).map
      (fun i => (l.getD (2 * i) default, l.getD (2 * i + 1) default))).toFinset

/-- A deterministic enumeration of `list_to_pairs l` (Python 2 iterates the
set in an unspecified but fixed order): the pairs in construction order with
duplicates removed. -/
def list_to_pairs_seq (l : List Char) : List (Char × Char) :=
  ((List.range (l.length / 2)).map
      (fun i => (l.getD (2 * i) default, l.getD (2 * i + 1) default))).dedup

/-- The `__main__` block of `braces.py` (lines 109–135) on already-read file
contents: when the symbol list is non-empty and of even length, every file is
scanned and condensed; otherwise (`else` branch) a diagnostic is written to
standard error and no file is scanned, modelled by `none`. -/
def mainRun (symbols : List Char) (files : List (List (List Char))) :
    Option (List (Option (List Entry))) :=
  if 0 < symbols.length ∧ symbols.length % 2 = 0 then
    some (files.map fun f => condense_to_list (check_file f (list_to_pairs_seq symbols)))
  else
    none

/-- Renaming of recorded positions after deleting the character at `(i, j)`:
positions on line `i` strictly to the right of column `j` shift left by one
column; all other positions are unchanged. -/
def shiftPos (i j : Nat) (p : Pos) : Pos :=
  if p.1 = i ∧ j < p.2 then (p.1, p.2 - 1) else p

/-- Apply a position renaming to every recorded position of a scan state. -/
def mapState (g : Pos → Pos) (σ : ScanState) : ScanState :=
  ⟨σ.openStacks.map (List.map g), σ.closeLists.map (List.map g)⟩

/-- Apply a position renaming to every event of an event list. -/
def mapEvents (g : Pos → Pos) (es : List (Pos × Char)) : List (Pos × Char) :=
  es.map fun e => (g e.1, e.2)

/-- Apply a position renaming to every recorded position of a scan
result. -/
def mapResult (g : Pos → Pos)
    (r : List ((Char × Char) × (List Pos × List Pos))) :
    List ((Char × Char) × (List Pos × List Pos)) :=
  r.map fun pr => (pr.1, (pr.2.1.map g, pr.2.2.map g))

/-- A position occurs somewhere in the scan state. -/
def memState (q : Pos) (σ : ScanState) : Prop :=
  (∃ l ∈ σ.openStacks, q ∈ l) ∨ (∃ l ∈ σ.closeLists, q ∈ l)

/-- The flat list of all open and close symbols of a pair list, in order
(used to state that a configuration has pairwise distinct symbols). -/
def symbolsOf (ps : List (Char × Char)) : List Char :=
  ps.flatMap fun pr => [pr.1, pr.2]

/-- Scan-state invariant: every list object holds strictly increasing
positions, all strictly before the bound `b` (the next position the scan will
visit). -/
def StateBelow (σ : ScanState) (b : Pos) : Prop :=
  (∀ l ∈ σ.openStacks, l.Pairwise posLt ∧ ∀ q ∈ l, posLt q b) ∧
  (∀ l ∈ σ.closeLists, l.Pairwise posLt ∧ ∀ q ∈ l, posLt q b)

example :
    check_file [['h','e','l','l','o'], ['w','o','r','l','{','d'],
        ['M','y',' ','{'], ['n','a','m','e',' ','i','s',' ','J','i','m','}'],
        ['{'], ['}']] [('{', '}')] =
      [(('{', '}'), ([(2, 5)], []))] := by decide

example :
    check_file [['}',' ',']',' ','[',' ','{']] [('{', '}'), ('[', ']')] =
      [(('{', '}'), ([(1, 7)], [(1, 1)])), (('[', ']'), ([(1, 5)], [(1, 3)]))] := by
  decide

example :
    check_file [['$','l','a','t','e','x',' ','m','a','t','h','$'],
        ['$','i','s',' ','h','a','r','d','e','r']] [('$', '$')] =
      [(('$', '$'), ([(2, 1)], []))] := by decide

example :
    check_file2 [['}',' ','w','h','a','t'], ['i','s',' ','t','h','i','s',' ','{']]
      [('{', '}')] = [(('{', '}'), ([(2, 9)], [(1, 1)]))] := by decide

theorem runEvents_append (step : ScanState → Pos → Char → ScanState)
    (a b : List (Pos × Char)) : ∀ (σ : ScanState),
    runEvents step σ (a ++ b) = runEvents step (runEvents step σ a) b := by
  induction a with
  | nil => intro σ; rfl
  | cons e es ih => intro σ; simp only [List.cons_append, runEvents]; exact ih _

theorem scanFrom_eq_runEvents (step : ScanState → Pos → Char → ScanState)
    (ln : Nat) : ∀ (cs : List Char) (col : Nat) (σ : ScanState),
    scanFrom step ln col σ cs = runEvents step σ (lineEvents ln col cs) := by
  intro cs
  induction cs with
  | nil => intro col σ; rfl
  | cons c cs ih =>
    intro col σ
    simp only [scanFrom, lineEvents, runEvents]
    exact ih _ _

theorem scanLines_eq_runEvents (step : ScanState → Pos → Char → ScanState) :
    ∀ (ls : List (List Char)) (ln : Nat) (σ : ScanState),
    scanLines step ln σ ls = runEvents step σ (fileEvents ln ls) := by
  intro ls
  induction ls with
  | nil => intro ln σ; rfl
  | cons l ls ih =>
    intro ln σ
    simp only [scanLines, fileEvents, runEvents_append]
    rw [scanFrom_eq_runEvents, ih]

/-- C4: scanning the four lines `hello / worl{d / My { / name is Jim}` with
the single pair `('{', '}')` yields unmatched opens exactly `[(2, 5)]` and no
unmatched closes: the close at line 4 pops the most recent open `(3, 4)`,
leaving only the open at line 2, column 5. -/
theorem braces_c4_scenario :
    check_file [['h','e','l','l','o'], ['w','o','r','l','{','d'],
        ['M','y',' ','{'], ['n','a','m','e',' ','i','s',' ','J','i','m','}']]
      [('{', '}')] = [(('{', '}'), ([(2, 5)], []))] := by decide

/-- C8: the scan is total — for every finite sequence of lines over arbitrary
characters and every pair list, `check_file` returns a result mapping with
exactly one entry per configured pair (in the embedding `check_file` is a
total function; no input is rejected and no error is raised). -/
theorem braces_c8_total (f : List (List Char)) (ps : List (Char × Char)) :
    (check_file f ps).map Prod.fst = ps := by
  simp only [check_file, List.map_map]
  exact List.map_id'' (fun x => rfl) ps

theorem openIdx_single (o c ch : Char) :
    openIdx [(o, c)] ch = if o = ch then some 0 else none := rfl

theorem closeIdx_single (o c ch : Char) :
    closeIdx [(o, c)] ch = if c = ch then some 0 else none := rfl

theorem stepChar_single_ordinary (o c : Char) (h : o ≠ c) (s t : List Pos)
    (p : Pos) (ch : Char) :
    stepChar [(o, c)] ⟨[s], [t]⟩ p ch =
      ⟨[(specOrdinaryStep o c (s, t) p ch).1],
       [(specOrdinaryStep o c (s, t) p ch).2]⟩ := by
  by_cases h1 : ch = o
  · simp [stepChar, openIdx_single, closeIdx_single, specOrdinaryStep, h1,
      Ne.symm h]
  · by_cases h2 : ch = c
    · cases s with
      | nil =>
        simp [stepChar, openIdx_single, closeIdx_single, specOrdinaryStep,
          show ¬ o = ch from fun hh => h1 hh.symm, h2, Ne.symm h, h]
      | cons a as =>
        simp [stepChar, openIdx_single, closeIdx_single, specOrdinaryStep,
          show ¬ o = ch from fun hh => h1 hh.symm, h2, Ne.symm h, h]
    · simp [stepChar, openIdx_single, closeIdx_single, specOrdinaryStep,
        show ¬ o = ch from fun hh => h1 hh.symm,
        show ¬ c = ch from fun hh => h2 hh.symm, h1, h2]

theorem runEvents_single_ordinary (o c : Char) (h : o ≠ c) :
    ∀ (es : List (Pos × Char)) (s t : List Pos),
    runEvents (stepChar [(o, c)]) ⟨[s], [t]⟩ es =
      ⟨[(es.foldl (fun st e => specOrdinaryStep o c st e.1 e.2) (s, t)).1],
       [(es.foldl (fun st e => specOrdinaryStep o c st e.1 e.2) (s, t)).2]⟩ := by
  intro es
  induction es with
  | nil => intro s t; rfl
  | cons e es ih =>
    intro s t
    simp only [runEvents, List.foldl_cons]
    rw [stepChar_single_ordinary o c h]
    simpa using ih (specOrdinaryStep o c (s, t) e.1 e.2).1
      (specOrdinaryStep o c (s, t) e.1 e.2).2

theorem check_file_single_ordinary (o c : Char) (h : o ≠ c)
    (f : List (List Char)) :
    check_file f [(o, c)] = [((o, c), specOrdinaryScan o c f)] := by
  unfold check_file
  rw [scanLines_eq_runEvents]
  have hinit : initState (List.length [(o, c)]) = ⟨[[]], [[]]⟩ := rfl
  rw [hinit, runEvents_single_ordinary o c h]
  simp only [List.map_cons, List.map_nil]
  rw [openIdx_single, closeIdx_single, if_pos rfl, if_pos rfl]
  rfl

/-- C1: for every ordinary pair (`o ≠ c`) and every input, `check_file`
treats the pair's symbols exactly as the spec's rule 2 describes — an open is
pushed unconditionally, a close pops the most recent pending open when the
stack is non-empty and is appended to the unmatched-closes sequence when it
is empty (`specOrdinaryScan` is that rule folded over the file's characters).
In particular a single lone close yields unmatched closes `[(1, 1)]` and no
unmatched opens, and a single lone open yields unmatched opens `[(1, 1)]` and
no unmatched closes. -/
theorem braces_c1_ordinary_pair (o c : Char) (h : o ≠ c)
    (f : List (List Char)) :
    check_file f [(o, c)] = [((o, c), specOrdinaryScan o c f)] ∧
    check_file [[c]] [(o, c)] = [((o, c), ([], [(1, 1)]))] ∧
    check_file [[o]] [(o, c)] = [((o, c), ([(1, 1)], []))] := by
  refine ⟨check_file_single_ordinary o c h f, ?_, ?_⟩
  · rw [check_file_single_ordinary o c h [[c]]]
    have : specOrdinaryScan o c [[c]] = ([], [(1, 1)]) := by
      simp [specOrdinaryScan, fileEvents, lineEvents, specOrdinaryStep,
        Ne.symm h]
    rw [this]
  · rw [check_file_single_ordinary o c h [[o]]]
    have : specOrdinaryScan o c [[o]] = ([(1, 1)], []) := by
      simp [specOrdinaryScan, fileEvents, lineEvents, specOrdinaryStep]
    rw [this]

/-- Witness for C1 at the concrete pair `('{', '}')`. -/
theorem braces_c1_witness :
    check_file [['}']] [('{', '}')] = [(('{', '}'), ([], [(1, 1)]))] ∧
    check_file [['{']] [('{', '}')] = [(('{', '}'), ([(1, 1)], []))] :=
  ⟨(braces_c1_ordinary_pair '{' '}' (by decide) [['}']]).2.1,
   (braces_c1_ordinary_pair '{' '}' (by decide) [['{']]).2.2⟩

theorem stepChar_single_self (s : Char) (st t : List Pos) (p : Pos)
    (ch : Char) :
    stepChar [(s, s)] ⟨[st], [t]⟩ p ch = ⟨[specSelfStep s st p ch], [t]⟩ := by
  by_cases h1 : ch = s
  · cases st with
    | nil =>
      simp [stepChar, openIdx_single, closeIdx_single, specSelfStep, h1]
    | cons a as =>
      simp [stepChar, openIdx_single, closeIdx_single, specSelfStep, h1]
  · simp [stepChar, openIdx_single, closeIdx_single, specSelfStep,
      show ¬ s = ch from fun hh => h1 hh.symm, h1]

theorem runEvents_single_self (s : Char) :
    ∀ (es : List (Pos × Char)) (st t : List Pos),
    runEvents (stepChar [(s, s)]) ⟨[st], [t]⟩ es =
      ⟨[es.foldl (fun acc e => specSelfStep s acc e.1 e.2) st], [t]⟩ := by
  intro es
  induction es with
  | nil => intro st t; rfl
  | cons e es ih =>
    intro st t
    simp only [runEvents, List.foldl_cons]
    rw [stepChar_single_self]
    exact ih _ _

theorem check_file_single_self (s : Char) (f : List (List Char)) :
    check_file f [(s, s)] = [((s, s), (specSelfScan s f, []))] := by
  unfold check_file
  rw [scanLines_eq_runEvents]
  have hinit : initState (List.length [(s, s)]) = ⟨[[]], [[]]⟩ := rfl
  rw [hinit, runEvents_single_self]
  simp only [List.map_cons, List.map_nil]
  have h1 : openIdx [(s, s)] (s, s).1 = some 0 := by
    rw [openIdx_single]
    exact if_pos rfl
  have h2 : closeIdx [(s, s)] (s, s).2 = some 0 := by
    rw [closeIdx_single]
    exact if_pos rfl
  rw [h1, h2]
  rfl

theorem getLastD_of_ne_nil {α : Type} :
    ∀ (l : List α), l ≠ [] → ∀ (a b : α), l.getLastD a = l.getLastD b
  | [], h, _, _ => absurd rfl h
  | x :: m, _, a, b => by rw [List.getLastD_cons, List.getLastD_cons]

theorem selfFold_toggle (s : Char) :
    ∀ (es : List (Pos × Char)) (p : Pos),
      (es.foldl (fun acc e => specSelfStep s acc e.1 e.2) [] =
        if (occOf s es).length % 2 = 0 then []
        else [(occOf s es).getLastD (0, 0)]) ∧
      (es.foldl (fun acc e => specSelfStep s acc e.1 e.2) [p] =
        if (occOf s es).length = 0 then [p]
        else if (occOf s es).length % 2 = 0 then [(occOf s es).getLastD (0, 0)]
        else []) := by
  intro es
  induction es with
  | nil =>
    intro p
    constructor <;> simp [occOf]
  | cons e es ih =>
    intro p
    by_cases hc : e.2 = s
    · have hocc : occOf s (e :: es) = e.1 :: occOf s es := by
        simp [occOf, List.filter_cons, hc]
      have hstep0 : specSelfStep s [] e.1 e.2 = [e.1] := by
        simp [specSelfStep, hc]
      have hstep1 : specSelfStep s [p] e.1 e.2 = [] := by
        simp [specSelfStep, hc]
      constructor
      · rw [List.foldl_cons, hstep0, (ih e.1).2, hocc]
        rcases Nat.eq_zero_or_pos (occOf s es).length with h0 | hpos
        · have hnil : occOf s es = [] := List.length_eq_zero.mp h0
          simp [hnil]
        · have hne : occOf s es ≠ [] := by
            intro hh
            rw [hh] at hpos
            simp at hpos
          by_cases hev : (occOf s es).length % 2 = 0
          · rw [if_neg (by omega), if_pos hev, List.length_cons,
              if_neg (by omega)]
            rw [List.getLastD_cons]
            exact congrArg (fun x => [x]) (getLastD_of_ne_nil _ hne _ _).symm
          · rw [if_neg (by omega), if_neg hev, List.length_cons,
              if_pos (by omega)]
      · rw [List.foldl_cons, hstep1, (ih p).1, hocc]
        by_cases hev : (occOf s es).length % 2 = 0
        · rw [if_pos hev, List.length_cons, if_neg (by omega),
            if_neg (by omega)]
        · have hne : occOf s es ≠ [] := by
            intro hh
            rw [hh] at hev
            simp at hev
          rw [if_neg hev, List.length_cons, if_neg (by omega),
            if_pos (by omega), List.getLastD_cons]
          exact congrArg (fun x => [x]) (getLastD_of_ne_nil _ hne _ _).symm
    · have hocc : occOf s (e :: es) = occOf s es := by
        simp [occOf, List.filter_cons, hc]
      have hstep : ∀ acc, specSelfStep s acc e.1 e.2 = acc := fun acc => by
        simp [specSelfStep, hc]
      constructor
      · rw [List.foldl_cons, hstep, (ih p).1, hocc]
      · rw [List.foldl_cons, hstep, (ih p).2, hocc]

/-- C2: for a self-matching pair `(s, s)` occurrences toggle — `check_file`
on the singleton pair list equals the spec's rule 1 (`specSelfScan`) with an
always-empty unmatched-closes list, and when the number of occurrences of `s`
in the whole input is odd the result holds exactly one unmatched open, namely
the position of the one occurrence left unmatched by the strict alternation
(the last one); an unmatched close is never produced. -/
theorem braces_c2_self_matching (s : Char) (f : List (List Char)) :
    check_file f [(s, s)] = [((s, s), (specSelfScan s f, []))] ∧
    ((occPositions s f).length % 2 = 1 →
      specSelfScan s f = [(occPositions s f).getLastD (0, 0)] ∧
      (specSelfScan s f).length = 1) := by
  refine ⟨check_file_single_self s f, fun hodd => ?_⟩
  have h := (selfFold_toggle s (fileEvents 0 f) (0, 0)).1
  have heq : specSelfScan s f = [(occPositions s f).getLastD (0, 0)] := by
    rw [specSelfScan, h]
    have : occOf s (fileEvents 0 f) = occPositions s f := rfl
    rw [this, if_neg (by omega)]
  exact ⟨heq, by rw [heq]; rfl⟩

/-- Witness for C2 at `s = '$'` on a four-line input with three occurrences
of `$`. -/
theorem braces_c2_witness :
    check_file [['$','a'], ['b'], ['$'], ['$','c']] [('$', '$')] =
      [(('$', '$'),
        (specSelfScan '$' [['$','a'], ['b'], ['$'], ['$','c']], []))] ∧
    specSelfScan '$' [['$','a'], ['b'], ['$'], ['$','c']] = [(4, 1)] := by
  have h := braces_c2_self_matching '$' [['$','a'], ['b'], ['$'], ['$','c']]
  refine ⟨h.1, ?_⟩
  have h2 := (h.2 (by decide)).1
  rw [h2]
  decide

theorem getD_dropLast {α : Type} :
    ∀ (l : List α) (k : Nat), k < l.length - 1 → ∀ (d : α),
      l.dropLast.getD k d = l.getD k d
  | [], k, h, d => by simp at h
  | [x], k, h, d => by simp at h
  | x :: y :: m, 0, h, d => rfl
  | x :: y :: m, k + 1, h, d => by
    have hk : k < (y :: m).length - 1 := by
      simp only [List.length_cons] at h ⊢
      omega
    simpa [List.dropLast] using getD_dropLast (y :: m) k hk d

/-- C7: on an even-length symbol list of length `2 * n`, `list_to_pairs`
returns exactly the set of pairs formed from adjacent elements at indices
`2 * i` and `2 * i + 1` for `i < n`; duplicates collapse by set semantics
(`Finset`), illustrated by the second conjunct, and determinism across calls
is inherent in `list_to_pairs` being a function. -/
theorem braces_c7_list_to_pairs (n : Nat) (l : List Char)
    (h : l.length = 2 * n) :
    (∀ p : Char × Char,
      p ∈ list_to_pairs l ↔
        ∃ i, i < n ∧
          p = (l.getD (2 * i) default, l.getD (2 * i + 1) default)) ∧
    list_to_pairs ['a', 'b', 'a', 'b'] = {('a', 'b')} := by
  constructor
  · intro p
    rw [list_to_pairs, List.mem_toFinset, List.mem_map]
    constructor
    · rintro ⟨i, hi, rfl⟩
      rw [List.mem_range] at hi
      exact ⟨i, by omega, rfl⟩
    · rintro ⟨i, hi, rfl⟩
      exact ⟨i, List.mem_range.mpr (by omega), rfl⟩
  · decide

/-- Witness for C7 on the list `['a', 'b', 'c', 'd']` of length `2 * 2`. -/
theorem braces_c7_witness :
    ('c', 'd') ∈ list_to_pairs ['a', 'b', 'c', 'd'] :=
  ((braces_c7_list_to_pairs 2 ['a', 'b', 'c', 'd'] rfl).1 ('c', 'd')).mpr
    ⟨1, by decide, by decide⟩

/-- C6 counterexample: the pair builder does not fail on an odd-length
sequence — `list_to_pairs` on the odd-length list `['a', 'b', 'c']` silently
returns the set `{('a', 'b')}` (Python 2's `range(len(l)/2)` floors, dropping
the trailing `'c'`); no `ConfigurationError` arises in the builder. -/
theorem braces_c6_counterexample :
    list_to_pairs ['a', 'b', 'c'] = {('a', 'b')} := by decide

/-- C6 amended: an odd-length symbol list is rejected by the `__main__`
guard, not by the pair builder — the invocation prints a diagnostic and
scans no file (modelled by `mainRun = none`, no partial output), while
`list_to_pairs` itself silently drops the trailing unpaired symbol. -/
theorem braces_c6_odd_rejected (symbols : List Char)
    (files : List (List (List Char))) (h : symbols.length % 2 = 1) :
    mainRun symbols files = none ∧
    list_to_pairs symbols = list_to_pairs symbols.dropLast := by
  constructor
  · rw [mainRun, if_neg]
    rintro ⟨h1, h2⟩
    omega
  · rw [list_to_pairs, list_to_pairs]
    have hlen : symbols.dropLast.length = symbols.length - 1 :=
      List.length_dropLast symbols
    have hdiv : symbols.dropLast.length / 2 = symbols.length / 2 := by
      rw [hlen]
      omega
    rw [hdiv]
    apply congrArg List.toFinset
    apply List.map_congr_left
    intro i hi
    rw [List.mem_range] at hi
    have e1 : symbols.dropLast.getD (2 * i) default =
        symbols.getD (2 * i) default :=
      getD_dropLast symbols (2 * i) (by omega) default
    have e2 : symbols.dropLast.getD (2 * i + 1) default =
        symbols.getD (2 * i + 1) default :=
      getD_dropLast symbols (2 * i + 1) (by omega) default
    rw [e1, e2]

/-- Witness for C6 (amended) on the odd-length list `['a', 'b', 'c']`. -/
theorem braces_c6_witness :
    mainRun ['a', 'b', 'c'] [[['a']]] = none ∧
    list_to_pairs ['a', 'b', 'c'] = list_to_pairs (['a', 'b', 'c'].dropLast) :=
  braces_c6_odd_rejected ['a', 'b', 'c'] [[['a']]] (by decide)

theorem posLe_total (a b : Pos) : posLe a b ∨ posLe b a := by
  unfold posLe
  omega

theorem posLe_trans {a b c : Pos} (h1 : posLe a b) (h2 : posLe b c) :
    posLe a c := by
  unfold posLe at h1 h2 ⊢
  omega

theorem insertEntry_perm (e : Entry) (l : List Entry) :
    List.Perm (insertEntry e l) (e :: l) := by
  induction l with
  | nil => exact List.Perm.refl _
  | cons e' es ih =>
    by_cases hle : posLe (entryKey e) (entryKey e')
    · rw [insertEntry, if_pos hle]
    · rw [insertEntry, if_neg hle]
      exact (ih.cons e').trans (List.Perm.swap e e' es)

theorem sortEntries_perm (l : List Entry) : List.Perm (sortEntries l) l := by
  induction l with
  | nil => exact List.Perm.refl _
  | cons e es ih => exact (insertEntry_perm e _).trans (ih.cons e)

theorem insertEntry_sorted (e : Entry) (l : List Entry)
    (hl : l.Pairwise (fun a b => posLe (entryKey a) (entryKey b))) :
    (insertEntry e l).Pairwise (fun a b => posLe (entryKey a) (entryKey b)) := by
  induction l with
  | nil => simp [insertEntry]
  | cons e' es ih =>
    rcases List.pairwise_cons.mp hl with ⟨hl1, hl2⟩
    by_cases hle : posLe (entryKey e) (entryKey e')
    · rw [insertEntry, if_pos hle]
      refine List.Pairwise.cons ?_ hl
      intro b hb
      rcases List.mem_cons.mp hb with rfl | hb
      · exact hle
      · exact posLe_trans hle (hl1 b hb)
    · rw [insertEntry, if_neg hle]
      refine List.Pairwise.cons ?_ (ih hl2)
      intro b hb
      have hb2 : b ∈ e :: es := (insertEntry_perm e es).subset hb
      rcases List.mem_cons.mp hb2 with rfl | hb2
      · rcases posLe_total (entryKey e') (entryKey b) with h | h
        · exact h
        · exact absurd h hle
      · exact hl1 b hb2

theorem sortEntries_sorted (l : List Entry) :
    (sortEntries l).Pairwise (fun a b => posLe (entryKey a) (entryKey b)) := by
  induction l with
  | nil => simp [sortEntries]
  | cons e es ih => exact insertEntry_sorted e _ ih

theorem insertEntry_filter (e : Entry) (l : List Entry) (k : Pos) :
    (insertEntry e l).filter (fun x => decide (entryKey x = k)) =
      if entryKey e = k then
        e :: l.filter (fun x => decide (entryKey x = k))
      else l.filter (fun x => decide (entryKey x = k)) := by
  induction l with
  | nil =>
    by_cases hk : entryKey e = k
    · simp [insertEntry, List.filter, hk]
    · simp [insertEntry, List.filter, hk]
  | cons e' es ih =>
    by_cases hle : posLe (entryKey e) (entryKey e')
    · rw [insertEntry, if_pos hle]
      by_cases hk : entryKey e = k
      · simp [List.filter_cons, hk]
      · simp [List.filter_cons, hk]
    · rw [insertEntry, if_neg hle]
      have hk' : entryKey e' ≠ entryKey e := by
        intro hh
        exact hle (hh ▸ (by unfold posLe; omega : posLe (entryKey e) (entryKey e)))
      by_cases hk : entryKey e = k
      · have hne : ¬ entryKey e' = k := fun hh => hk' (hh.trans hk.symm)
        rw [if_pos hk]
        rw [List.filter_cons_of_neg (by simp [hne]), List.filter_cons_of_neg (by simp [hne]),
          ih, if_pos hk]
      · rw [if_neg hk, List.filter_cons, List.filter_cons, ih, if_neg hk]

theorem sortEntries_filter (l : List Entry) (k : Pos) :
    (sortEntries l).filter (fun x => decide (entryKey x = k)) =
      l.filter (fun x => decide (entryKey x = k)) := by
  induction l with
  | nil => rfl
  | cons e es ih =>
    rw [sortEntries, insertEntry_filter]
    by_cases hk : entryKey e = k
    · rw [if_pos hk, ih, List.filter_cons_of_pos (by simp [hk])]
    · rw [if_neg hk, ih, List.filter_cons_of_neg (by simp [hk])]

/-- C3 counterexample: on the empty scan-result mapping the condenser does
not return the sorted concatenation (which would be `some []`):
`functools.reduce(operator.add, [])` has no initial value and raises
`TypeError`, modelled by `none`. -/
theorem braces_c3_counterexample :
    condense_to_list [] = none ∧
    condense_to_list [] ≠ some (sortEntries (flattenHits [])) := by
  exact ⟨rfl, by decide⟩

/-- C3 amended: for every *non-empty* scan-result mapping the condenser
returns the concatenation over all pairs of unmatched-open entries followed
by unmatched-close entries, stably sorted ascending by the strict
`(line, column)` key with the symbol excluded: the output is a permutation of
the concatenation, pairwise `≤` on keys, and entries of any fixed key keep
their concatenation order.  On the empty mapping the condenser raises
`TypeError` instead.  The concrete conjuncts check the `['} ] [ {']` example:
entries appear at columns 1, 3, 5, 7 in order for either iteration order of
the two pairs. -/
theorem braces_c3_condense_sorted
    (hd : List ((Char × Char) × (List Pos × List Pos))) (h : hd ≠ []) :
    (condense_to_list hd = some (sortEntries (flattenHits hd)) ∧
     List.Perm (sortEntries (flattenHits hd)) (flattenHits hd) ∧
     (sortEntries (flattenHits hd)).Pairwise
       (fun a b => posLe (entryKey a) (entryKey b)) ∧
     ∀ k : Pos,
       (sortEntries (flattenHits hd)).filter (fun x => decide (entryKey x = k)) =
         (flattenHits hd).filter (fun x => decide (entryKey x = k))) ∧
    ((condense_to_list (check_file [['}',' ',']',' ','[',' ','{']]
        [('{', '}'), ('[', ']')])).getD []).map entryKey =
      [(1, 1), (1, 3), (1, 5), (1, 7)] ∧
    ((condense_to_list (check_file [['}',' ',']',' ','[',' ','{']]
        [('[', ']'), ('{', '}')])).getD []).map entryKey =
      [(1, 1), (1, 3), (1, 5), (1, 7)] := by
  refine ⟨⟨?_, sortEntries_perm _, sortEntries_sorted _,
    fun k => sortEntries_filter _ k⟩, by decide, by decide⟩
  cases hd with
  | nil => exact absurd rfl h
  | cons a l => rfl

/-- Witness for C3 (amended) on a two-pair mapping with a (line, column)
tie between entries of different pairs. -/
theorem braces_c3_witness :
    condense_to_list [(('{', '}'), ([(1, 2)], [])), (('[', ']'), ([(1, 2)], []))] =
      some [('{', 1, 2), ('[', 1, 2)] := by
  have h := (braces_c3_condense_sorted
    [(('{', '}'), ([(1, 2)], [])), (('[', ']'), ([(1, 2)], []))]
    (by decide)).1.1
  rw [h]
  decide

theorem posLt_trans {a b c : Pos} (h1 : posLt a b) (h2 : posLt b c) :
    posLt a c := by
  unfold posLt at h1 h2 ⊢
  omega

theorem posLt_succPos (p : Pos) : posLt p (succPos p) :=
  Or.inr ⟨rfl, Nat.lt_succ_self p.2⟩

theorem posLt_of_lt_of_le {a b c : Pos} (h1 : posLt a b) (h2 : posLe b c) :
    posLt a c := by
  unfold posLt at h1 ⊢
  unfold posLe at h2
  omega

theorem posLe_succPos_of_lt {a b : Pos} (h : posLt a b) :
    posLe (succPos a) b := by
  unfold posLt at h
  unfold posLe succPos
  simp only []
  omega

theorem getD_prop {α : Type} (P : α → Prop) (L : List α) (d : α)
    (hL : ∀ l ∈ L, P l) (hd : P d) (i : Nat) : P (L.getD i d) := by
  rw [List.getD_eq_getElem?_getD]
  cases hx : L[i]? with
  | none => exact hd
  | some x => exact hL x (List.getElem?_mem hx)

theorem StateBelow.mono {σ : ScanState} {b b' : Pos} (h : StateBelow σ b)
    (hb : posLe b b') : StateBelow σ b' := by
  refine ⟨fun l hl => ⟨(h.1 l hl).1, fun q hq => ?_⟩,
    fun l hl => ⟨(h.2 l hl).1, fun q hq => ?_⟩⟩
  · exact posLt_of_lt_of_le ((h.1 l hl).2 q hq) hb
  · exact posLt_of_lt_of_le ((h.2 l hl).2 q hq) hb

theorem below_set_push {L : List (List Pos)} {p : Pos} {i : Nat}
    (hL : ∀ l ∈ L, l.Pairwise posLt ∧ ∀ q ∈ l, posLt q p) :
    ∀ l ∈ L.set i (L.getD i [] ++ [p]),
      l.Pairwise posLt ∧ ∀ q ∈ l, posLt q (succPos p) := by
  intro l hl
  rcases List.mem_or_eq_of_mem_set hl with hmem | rfl
  · exact ⟨(hL l hmem).1,
      fun q hq => posLt_trans ((hL l hmem).2 q hq) (posLt_succPos p)⟩
  · have hbase : (L.getD i []).Pairwise posLt ∧
        ∀ q ∈ L.getD i [], posLt q p :=
      getD_prop _ L [] hL ⟨List.Pairwise.nil, by simp⟩ i
    constructor
    · rw [List.pairwise_append]
      refine ⟨hbase.1, List.pairwise_singleton _ _, ?_⟩
      intro a ha b hb
      rw [List.mem_singleton] at hb
      subst hb
      exact hbase.2 a ha
    · intro q hq
      rcases List.mem_append.mp hq with hq | hq
      · exact posLt_trans (hbase.2 q hq) (posLt_succPos p)
      · rw [List.mem_singleton] at hq
        subst hq
        exact posLt_succPos _

theorem below_set_pop {L : List (List Pos)} {p : Pos} {i : Nat}
    (hL : ∀ l ∈ L, l.Pairwise posLt ∧ ∀ q ∈ l, posLt q p) :
    ∀ l ∈ L.set i (L.getD i []).dropLast,
      l.Pairwise posLt ∧ ∀ q ∈ l, posLt q (succPos p) := by
  intro l hl
  rcases List.mem_or_eq_of_mem_set hl with hmem | rfl
  · exact ⟨(hL l hmem).1,
      fun q hq => posLt_trans ((hL l hmem).2 q hq) (posLt_succPos p)⟩
  · have hbase : (L.getD i []).Pairwise posLt ∧
        ∀ q ∈ L.getD i [], posLt q p :=
      getD_prop _ L [] hL ⟨List.Pairwise.nil, by simp⟩ i
    refine ⟨List.Pairwise.sublist (List.dropLast_sublist _) hbase.1,
      fun q hq => ?_⟩
    exact posLt_trans (hbase.2 q ((List.dropLast_sublist _).subset hq))
      (posLt_succPos p)

theorem below_keep {L : List (List Pos)} {p : Pos}
    (hL : ∀ l ∈ L, l.Pairwise posLt ∧ ∀ q ∈ l, posLt q p) :
    ∀ l ∈ L, l.Pairwise posLt ∧ ∀ q ∈ l, posLt q (succPos p) :=
  fun l hl => ⟨(hL l hl).1,
    fun q hq => posLt_trans ((hL l hl).2 q hq) (posLt_succPos p)⟩

theorem stepChar_below (ps : List (Char × Char)) (σ : ScanState) (p : Pos)
    (c : Char) (h : StateBelow σ p) :
    StateBelow (stepChar ps σ p c) (succPos p) := by
  rcases hoi : openIdx ps c with _ | i
  · rcases hci : closeIdx ps c with _ | j
    · simp only [stepChar, hoi, hci]
      exact ⟨below_keep h.1, below_keep h.2⟩
    · simp only [stepChar, hoi, hci]
      by_cases hlen : 0 < (σ.openStacks.getD j []).length
      · rw [if_pos hlen]
        exact ⟨below_set_pop h.1, below_keep h.2⟩
      · rw [if_neg hlen]
        exact ⟨below_keep h.1, below_set_push h.2⟩
  · rcases hci : closeIdx ps c with _ | j
    · simp only [stepChar, hoi, hci]
      exact ⟨below_set_push h.1, below_keep h.2⟩
    · simp only [stepChar, hoi, hci]
      by_cases heq : σ.openStacks.getD j [] = σ.openStacks.getD i []
      · rw [if_pos heq]
        by_cases hemp : (σ.openStacks.getD i []).isEmpty = true
        · rw [if_pos hemp]
          exact ⟨below_set_push h.1, below_keep h.2⟩
        · rw [if_neg hemp]
          exact ⟨below_set_pop h.1, below_keep h.2⟩
      · rw [if_neg heq]
        exact ⟨below_set_push h.1, below_keep h.2⟩

theorem runEvents_below (ps : List (Char × Char)) :
    ∀ (es : List (Pos × Char)) (σ : ScanState) (b : Pos),
    StateBelow σ b → (∀ e ∈ es, posLe b e.1) →
    es.Pairwise (fun x y => posLt x.1 y.1) →
    ∃ b', StateBelow (runEvents (stepChar ps) σ es) b' := by
  intro es
  induction es with
  | nil =>
    intro σ b hσ _ _
    exact ⟨b, hσ⟩
  | cons e es ih =>
    intro σ b hσ hb hp
    rcases List.pairwise_cons.mp hp with ⟨hp1, hp2⟩
    have hσe : StateBelow σ e.1 := hσ.mono (hb e (List.mem_cons_self e es))
    exact ih (stepChar ps σ e.1 e.2) (succPos e.1)
      (stepChar_below ps σ e.1 e.2 hσe)
      (fun e' he' => posLe_succPos_of_lt (hp1 e' he')) hp2

theorem lineEvents_mem (ln : Nat) :
    ∀ (cs : List Char) (col : Nat) (e : Pos × Char),
      e ∈ lineEvents ln col cs → e.1.1 = ln ∧ col < e.1.2 := by
  intro cs
  induction cs with
  | nil =>
    intro col e he
    simp [lineEvents] at he
  | cons c cs ih =>
    intro col e he
    rcases List.mem_cons.mp he with rfl | he
    · exact ⟨rfl, Nat.lt_succ_self col⟩
    · have h2 := ih (col + 1) e he
      exact ⟨h2.1, by omega⟩

theorem lineEvents_pairwise (ln : Nat) :
    ∀ (cs : List Char) (col : Nat),
      (lineEvents ln col cs).Pairwise (fun x y => posLt x.1 y.1) := by
  intro cs
  induction cs with
  | nil =>
    intro col
    simp [lineEvents]
  | cons c cs ih =>
    intro col
    refine List.Pairwise.cons ?_ (ih (col + 1))
    intro e he
    have hm := lineEvents_mem ln cs (col + 1) e he
    exact Or.inr ⟨hm.1.symm, hm.2⟩

theorem fileEvents_mem :
    ∀ (ls : List (List Char)) (ln : Nat) (e : Pos × Char),
      e ∈ fileEvents ln ls → ln < e.1.1 ∧ e.1.1 ≤ ln + ls.length := by
  intro ls
  induction ls with
  | nil =>
    intro ln e he
    simp [fileEvents] at he
  | cons l ls ih =>
    intro ln e he
    rcases List.mem_append.mp he with he | he
    · have h2 := lineEvents_mem (ln + 1) l 0 e he
      simp only [List.length_cons]
      omega
    · have h2 := ih (ln + 1) e he
      simp only [List.length_cons]
      omega

theorem fileEvents_pairwise :
    ∀ (ls : List (List Char)) (ln : Nat),
      (fileEvents ln ls).Pairwise (fun x y => posLt x.1 y.1) := by
  intro ls
  induction ls with
  | nil =>
    intro ln
    simp [fileEvents]
  | cons l ls ih =>
    intro ln
    rw [fileEvents, List.pairwise_append]
    refine ⟨lineEvents_pairwise (ln + 1) l 0, ih (ln + 1), ?_⟩
    intro x hx y hy
    have hx1 := lineEvents_mem (ln + 1) l 0 x hx
    have hy1 := fileEvents_mem ls (ln + 1) y hy
    exact Or.inl (by omega)

/-- C9: in every scan result produced by `check_file`, each pair's
unmatched-opens list and unmatched-closes list are strictly increasing in
`(line, column)` lexicographic order — positions are recorded in scan
order. -/
theorem braces_c9_sorted_lists (f : List (List Char))
    (ps : List (Char × Char)) (pr : Char × Char) (us cs : List Pos)
    (h : (pr, (us, cs)) ∈ check_file f ps) :
    us.Pairwise posLt ∧ cs.Pairwise posLt := by
  have hinit : StateBelow (initState ps.length) (0, 0) := by
    constructor <;> intro l hl <;>
      · have hleq : l = [] := List.eq_of_mem_replicate hl
        subst hleq
        exact ⟨List.Pairwise.nil, by simp⟩
  have hb : ∀ e ∈ fileEvents 0 f, posLe (0, 0) e.1 := by
    intro e he
    exact Or.inl (fileEvents_mem f 0 e he).1
  obtain ⟨b', hσ⟩ := runEvents_below ps (fileEvents 0 f)
    (initState ps.length) (0, 0) hinit hb (fileEvents_pairwise f 0)
  unfold check_file at h
  rw [scanLines_eq_runEvents] at h
  rcases List.mem_map.mp h with ⟨pr', hpr', heq⟩
  rw [Prod.mk.injEq] at heq
  obtain ⟨rfl, heq2⟩ := heq
  rw [Prod.mk.injEq] at heq2
  obtain ⟨hus, hcs⟩ := heq2
  subst hus
  subst hcs
  constructor
  · cases hoi : openIdx ps pr'.1 with
    | none => simp [idxGet]
    | some i =>
      exact (getD_prop (fun l => l.Pairwise posLt ∧ ∀ q ∈ l, posLt q b')
        _ [] hσ.1 ⟨List.Pairwise.nil, by simp⟩ i).1
  · cases hoi : closeIdx ps pr'.2 with
    | none => simp [idxGet]
    | some j =>
      exact (getD_prop (fun l => l.Pairwise posLt ∧ ∀ q ∈ l, posLt q b')
        _ [] hσ.2 ⟨List.Pairwise.nil, by simp⟩ j).1

/-- Witness for C9 on a two-line input with two unmatched opens. -/
theorem braces_c9_witness :
    ([(1, 2), (2, 1)] : List Pos).Pairwise posLt ∧
      ([] : List Pos).Pairwise posLt :=
  braces_c9_sorted_lists [['a','{'], ['{']] [('{', '}')] ('{', '}')
    [(1, 2), (2, 1)] [] (by decide)

theorem openIdx_mem_fst :
    ∀ (ps : List (Char × Char)) (ch : Char) (i : Nat),
      openIdx ps ch = some i → ch ∈ ps.map Prod.fst := by
  intro ps
  induction ps with
  | nil =>
    intro ch i h
    simp [openIdx] at h
  | cons pr rest ih =>
    intro ch i h
    rw [openIdx] at h
    cases hr : openIdx rest ch with
    | some k =>
      rw [List.map_cons, List.mem_cons]
      exact Or.inr (ih ch k hr)
    | none =>
      rw [hr] at h
      by_cases hpr : pr.1 = ch
      · rw [List.map_cons, List.mem_cons]
        exact Or.inl hpr.symm
      · rw [if_neg hpr] at h
        exact absurd h (by simp)

theorem closeIdx_mem_snd :
    ∀ (ps : List (Char × Char)) (ch : Char) (j : Nat),
      closeIdx ps ch = some j → ch ∈ ps.map Prod.snd := by
  intro ps
  induction ps with
  | nil =>
    intro ch j h
    simp [closeIdx] at h
  | cons pr rest ih =>
    intro ch j h
    rw [closeIdx] at h
    cases hr : closeIdx rest ch with
    | some k =>
      rw [List.map_cons, List.mem_cons]
      exact Or.inr (ih ch k hr)
    | none =>
      rw [hr] at h
      by_cases hpr : pr.2 = ch
      · rw [List.map_cons, List.mem_cons]
        exact Or.inl hpr.symm
      · rw [if_neg hpr] at h
        exact absurd h (by simp)

theorem closeIdx_getD :
    ∀ (ps : List (Char × Char)) (ch : Char) (j : Nat),
      closeIdx ps ch = some j →
        j < ps.length ∧ (ps.getD j default).2 = ch := by
  intro ps
  induction ps with
  | nil =>
    intro ch j h
    simp [closeIdx] at h
  | cons pr rest ih =>
    intro ch j h
    rw [closeIdx] at h
    cases hr : closeIdx rest ch with
    | some k =>
      rw [hr] at h
      have hj : j = k + 1 := by
        cases h
        rfl
      subst hj
      have h2 := ih ch k hr
      refine ⟨by simpa using h2.1, by simpa using h2.2⟩
    | none =>
      rw [hr] at h
      by_cases hpr : pr.2 = ch
      · rw [if_pos hpr] at h
        have hj : j = 0 := by
          cases h
          rfl
        subst hj
        exact ⟨by simp, hpr⟩
      · rw [if_neg hpr] at h
        exact absurd h (by simp)

theorem openIdx_unique :
    ∀ (ps : List (Char × Char)), (ps.map Prod.fst).Nodup →
      ∀ (i : Nat), i < ps.length → ∀ (ch : Char),
        (ps.getD i default).1 = ch → openIdx ps ch = some i := by
  intro ps
  induction ps with
  | nil =>
    intro _ i hi
    simp at hi
  | cons pr rest ih =>
    intro hnd i hi ch hch
    rw [List.map_cons, List.nodup_cons] at hnd
    cases i with
    | zero =>
      have hpr : pr.1 = ch := hch
      have hrest : openIdx rest ch = none := by
        cases hr : openIdx rest ch with
        | none => rfl
        | some k =>
          have hmem := openIdx_mem_fst rest ch k hr
          rw [← hpr] at hmem
          exact absurd hmem hnd.1
      rw [openIdx, hrest, if_pos hpr]
    | succ k =>
      have hk : k < rest.length := by
        simp only [List.length_cons] at hi
        omega
      have hr : openIdx rest ch = some k :=
        ih hnd.2 k hk ch (by simpa using hch)
      rw [openIdx, hr]

theorem openForSym_eq :
    ∀ (ps : List (Char × Char)) (ch : Char),
      openForSym ps ch =
        (closeIdx ps ch).map (fun j => (ps.getD j default).1) := by
  intro ps
  induction ps with
  | nil => intro ch; rfl
  | cons pr rest ih =>
    intro ch
    rw [openForSym, closeIdx, ih]
    cases hr : closeIdx rest ch with
    | some k => simp
    | none =>
      by_cases hpr : pr.2 = ch
      · simp [hpr]
      · simp [hpr]

theorem symbolsOf_cons (pr : Char × Char) (rest : List (Char × Char)) :
    symbolsOf (pr :: rest) = pr.1 :: pr.2 :: symbolsOf rest := rfl

theorem mem_symbolsOf_fst :
    ∀ (ps : List (Char × Char)) (ch : Char),
      ch ∈ ps.map Prod.fst → ch ∈ symbolsOf ps := by
  intro ps
  induction ps with
  | nil => intro ch h; simp at h
  | cons pr rest ih =>
    intro ch h
    rw [List.map_cons, List.mem_cons] at h
    rw [symbolsOf_cons]
    rcases h with rfl | h
    · exact List.mem_cons_self _ _
    · exact List.mem_cons_of_mem _ (List.mem_cons_of_mem _ (ih ch h))

theorem mem_symbolsOf_snd :
    ∀ (ps : List (Char × Char)) (ch : Char),
      ch ∈ ps.map Prod.snd → ch ∈ symbolsOf ps := by
  intro ps
  induction ps with
  | nil => intro ch h; simp at h
  | cons pr rest ih =>
    intro ch h
    rw [List.map_cons, List.mem_cons] at h
    rw [symbolsOf_cons]
    rcases h with rfl | h
    · exact List.mem_cons_of_mem _ (List.mem_cons_self _ _)
    · exact List.mem_cons_of_mem _ (List.mem_cons_of_mem _ (ih ch h))

theorem nodup_fst_of_symbolsOf :
    ∀ (ps : List (Char × Char)), (symbolsOf ps).Nodup →
      (ps.map Prod.fst).Nodup := by
  intro ps
  induction ps with
  | nil => intro _; simp
  | cons pr rest ih =>
    intro hnd
    rw [symbolsOf_cons, List.nodup_cons, List.nodup_cons] at hnd
    rw [List.map_cons, List.nodup_cons]
    refine ⟨?_, ih hnd.2.2⟩
    intro hmem
    exact hnd.1 (List.mem_cons_of_mem _ (mem_symbolsOf_fst rest pr.1 hmem))

theorem not_fst_and_snd_of_symbolsOf :
    ∀ (ps : List (Char × Char)), (symbolsOf ps).Nodup → ∀ (ch : Char),
      ch ∈ ps.map Prod.fst → ch ∈ ps.map Prod.snd → False := by
  intro ps
  induction ps with
  | nil => intro _ ch h; simp at h
  | cons pr rest ih =>
    intro hnd ch h1 h2
    rw [symbolsOf_cons, List.nodup_cons, List.nodup_cons] at hnd
    rw [List.map_cons, List.mem_cons] at h1 h2
    rcases h1 with rfl | h1
    · rcases h2 with heq | h2
      · exact hnd.1 (by rw [heq]; exact List.mem_cons_self _ _)
      · exact hnd.1
          (List.mem_cons_of_mem _ (mem_symbolsOf_snd rest pr.1 h2))
    · rcases h2 with rfl | h2
      · exact hnd.2.1 (mem_symbolsOf_fst rest pr.2 h1)
      · exact ih hnd.2.2 ch h1 h2

theorem stepChar_eq_stepChar2 (ps : List (Char × Char))
    (hnd : (symbolsOf ps).Nodup) (σ : ScanState) (p : Pos) (c : Char) :
    stepChar ps σ p c = stepChar2 ps σ p c := by
  rcases hoi : openIdx ps c with _ | i
  · rcases hci : closeIdx ps c with _ | j
    · simp only [stepChar, stepChar2, hoi, hci]
    · have hj := closeIdx_getD ps c j hci
      have hofs : openForSym ps c = some ((ps.getD j default).1) := by
        rw [openForSym_eq, hci]
        rfl
      have hoj : openIdx ps ((ps.getD j default).1) = some j :=
        openIdx_unique ps (nodup_fst_of_symbolsOf ps hnd) j hj.1 _ rfl
      simp only [stepChar, stepChar2, hoi, hci, hofs, Option.bind, hoj]
  · have hci : closeIdx ps c = none := by
      cases hc : closeIdx ps c with
      | none => rfl
      | some j =>
        exact (not_fst_and_snd_of_symbolsOf ps hnd c
          (openIdx_mem_fst ps c i hoi) (closeIdx_mem_snd ps c j hc)).elim
    simp only [stepChar, stepChar2, hoi, hci]

theorem scanFrom_congr (s1 s2 : ScanState → Pos → Char → ScanState)
    (h : ∀ σ p c, s1 σ p c = s2 σ p c) (ln : Nat) :
    ∀ (cs : List Char) (col : Nat) (σ : ScanState),
      scanFrom s1 ln col σ cs = scanFrom s2 ln col σ cs := by
  intro cs
  induction cs with
  | nil => intro col σ; rfl
  | cons c cs ih =>
    intro col σ
    rw [scanFrom, scanFrom, h]
    exact ih _ _

theorem scanLines_congr (s1 s2 : ScanState → Pos → Char → ScanState)
    (h : ∀ σ p c, s1 σ p c = s2 σ p c) :
    ∀ (ls : List (List Char)) (ln : Nat) (σ : ScanState),
      scanLines s1 ln σ ls = scanLines s2 ln σ ls := by
  intro ls
  induction ls with
  | nil => intro ln σ; rfl
  | cons l ls ih =>
    intro ln σ
    rw [scanLines, scanLines, scanFrom_congr s1 s2 h]
    exact ih _ _

/-- C10: on a pair list in which every pair is ordinary (`open ≠ close`) and
all open and close symbols across all pairs are pairwise distinct, the two
near-duplicate implementations `check_file` (`braces.py`) and `check_file2`
(`find_unmatched_braces.py`) return equal results for every input. -/
theorem braces_c10_equiv (f : List (List Char)) (ps : List (Char × Char))
    (_hord : ∀ pr ∈ ps, pr.1 ≠ pr.2) (hnd : (symbolsOf ps).Nodup) :
    check_file f ps = check_file2 f ps := by
  unfold check_file check_file2
  rw [scanLines_congr (stepChar ps) (stepChar2 ps)
    (stepChar_eq_stepChar2 ps hnd) f 0 (initState ps.length)]

/-- Witness for C10 on the two-pair configuration `{('{','}'), ('[',']')}`. -/
theorem braces_c10_witness :
    check_file [['}',' ',']',' ','[',' ','{']] [('{', '}'), ('[', ']')] =
      check_file2 [['}',' ',']',' ','[',' ','{']] [('{', '}'), ('[', ']')] :=
  braces_c10_equiv [['}',' ',']',' ','[',' ','{']] [('{', '}'), ('[', ']')]
    (by decide) (by decide)

theorem lineEvents_append (ln : Nat) :
    ∀ (a b : List Char) (col : Nat),
      lineEvents ln col (a ++ b) =
        lineEvents ln col a ++ lineEvents ln (col + a.length) b := by
  intro a
  induction a with
  | nil =>
    intro b col
    simp [lineEvents]
  | cons c a ih =>
    intro b col
    rw [List.cons_append, lineEvents, lineEvents, ih, List.cons_append]
    have : col + 1 + a.length = col + (a.length + 1) := by omega
    rw [this]
    rfl

theorem fileEvents_append :
    ∀ (a b : List (List Char)) (ln : Nat),
      fileEvents ln (a ++ b) =
        fileEvents ln a ++ fileEvents (ln + a.length) b := by
  intro a
  induction a with
  | nil =>
    intro b ln
    simp [fileEvents]
  | cons l a ih =>
    intro b ln
    rw [List.cons_append, fileEvents, fileEvents, ih, List.append_assoc]
    have : ln + 1 + a.length = ln + (a.length + 1) := by omega
    rw [this]
    rfl

theorem stepChar_irrelevant (ps : List (Char × Char)) (σ : ScanState)
    (p : Pos) (c : Char) (ho : openIdx ps c = none)
    (hc : closeIdx ps c = none) : stepChar ps σ p c = σ := by
  simp only [stepChar, ho, hc]

theorem getD_map (g : Pos → Pos) :
    ∀ (L : List (List Pos)) (i : Nat),
      (L.map (List.map g)).getD i [] = (L.getD i []).map g := by
  intro L
  induction L with
  | nil => intro i; simp
  | cons x L ih =>
    intro i
    cases i with
    | zero => simp
    | succ k => simpa using ih k

theorem isEmpty_map (g : Pos → Pos) (l : List Pos) :
    (l.map g).isEmpty = l.isEmpty := by
  cases l <;> rfl

theorem map_inj_on {g : Pos → Pos} {P : Pos → Prop}
    (hg : ∀ p q, P p → P q → g p = g q → p = q) :
    ∀ (l1 l2 : List Pos), (∀ x ∈ l1, P x) → (∀ x ∈ l2, P x) →
      (l1.map g = l2.map g ↔ l1 = l2) := by
  intro l1
  induction l1 with
  | nil =>
    intro l2 _ _
    cases l2 with
    | nil => simp
    | cons y l2 => simp
  | cons x l1 ih =>
    intro l2 h1 h2
    cases l2 with
    | nil => simp
    | cons y l2 =>
      simp only [List.map_cons, List.cons.injEq]
      constructor
      · rintro ⟨hxy, hrest⟩
        refine ⟨hg x y (h1 x (List.mem_cons_self _ _))
          (h2 y (List.mem_cons_self _ _)) hxy, ?_⟩
        exact (ih l2 (fun q hq => h1 q (List.mem_cons_of_mem _ hq))
          (fun q hq => h2 q (List.mem_cons_of_mem _ hq))).mp hrest
      · rintro ⟨rfl, rfl⟩
        exact ⟨rfl, rfl⟩

theorem mem_getD_exists {L : List (List Pos)} {i : Nat} {q : Pos}
    (hq : q ∈ L.getD i []) : ∃ l ∈ L, q ∈ l := by
  revert hq
  exact getD_prop (fun l => ∀ q', q' ∈ l → ∃ l' ∈ L, q' ∈ l') L []
    (fun l hl q' hq' => ⟨l, hl, hq'⟩) (by simp) i q

theorem mem_openStacks_memState {σ : ScanState} {i : Nat} {q : Pos}
    (hq : q ∈ σ.openStacks.getD i []) : memState q σ :=
  Or.inl (mem_getD_exists hq)

theorem mem_closeLists_memState {σ : ScanState} {j : Nat} {q : Pos}
    (hq : q ∈ σ.closeLists.getD j []) : memState q σ :=
  Or.inr (mem_getD_exists hq)

theorem stepChar_equivariant {g : Pos → Pos} {P : Pos → Prop}
    (hg : ∀ p q, P p → P q → g p = g q → p = q) (ps : List (Char × Char))
    (σ : ScanState) (p : Pos) (c : Char) (hσ : ∀ q, memState q σ → P q)
    (_hp : P p) :
    stepChar ps (mapState g σ) (g p) c = mapState g (stepChar ps σ p c) := by
  have hos : (mapState g σ).openStacks = σ.openStacks.map (List.map g) := rfl
  have hcs : (mapState g σ).closeLists = σ.closeLists.map (List.map g) := rfl
  rcases hoi : openIdx ps c with _ | i <;> rcases hci : closeIdx ps c with _ | j
  · simp only [stepChar, hoi, hci]
  · simp only [stepChar, hoi, hci, hos, hcs, getD_map, List.length_map]
    by_cases hlen : 0 < (σ.openStacks.getD j []).length
    · rw [if_pos hlen, if_pos hlen]
      simp only [mapState, List.map_set, List.map_dropLast]
    · rw [if_neg hlen, if_neg hlen]
      simp only [mapState, List.map_set, List.map_append, List.map_cons,
        List.map_nil]
  · simp only [stepChar, hoi, hci, hos, hcs, getD_map]
    simp only [mapState, List.map_set, List.map_append, List.map_cons,
      List.map_nil]
  · simp only [stepChar, hoi, hci, hos, hcs, getD_map]
    have hcond : (σ.openStacks.getD j []).map g = (σ.openStacks.getD i []).map g ↔
        σ.openStacks.getD j [] = σ.openStacks.getD i [] :=
      map_inj_on hg _ _
        (fun q hq => hσ q (mem_openStacks_memState hq))
        (fun q hq => hσ q (mem_openStacks_memState hq))
    by_cases heq : σ.openStacks.getD j [] = σ.openStacks.getD i []
    · rw [if_pos (hcond.mpr heq), if_pos heq, isEmpty_map]
      by_cases hemp : (σ.openStacks.getD i []).isEmpty = true
      · rw [if_pos hemp, if_pos hemp]
        simp only [mapState, List.map_set, List.map_append, List.map_cons,
          List.map_nil]
      · rw [if_neg hemp, if_neg hemp]
        simp only [mapState, List.map_set, List.map_dropLast]
    · rw [if_neg (fun hh => heq (hcond.mp hh)), if_neg heq]
      simp only [mapState, List.map_set, List.map_append, List.map_cons,
        List.map_nil]

theorem memState_step (ps : List (Char × Char)) (σ : ScanState) (p : Pos)
    (c : Char) (q : Pos) (h : memState q (stepChar ps σ p c)) :
    memState q σ ∨ q = p := by
  have hpush : ∀ (L : List (List Pos)) (k : Nat),
      (∃ l ∈ L.set k (L.getD k [] ++ [p]), q ∈ l) →
        (∃ l ∈ L, q ∈ l) ∨ q = p := by
    intro L k hex
    rcases hex with ⟨l, hl, hq⟩
    rcases List.mem_or_eq_of_mem_set hl with hmem | rfl
    · exact Or.inl ⟨l, hmem, hq⟩
    · rcases List.mem_append.mp hq with hq | hq
      · exact Or.inl (mem_getD_exists hq)
      · rw [List.mem_singleton] at hq
        exact Or.inr hq
  have hpop : ∀ (L : List (List Pos)) (k : Nat),
      (∃ l ∈ L.set k (L.getD k []).dropLast, q ∈ l) → ∃ l ∈ L, q ∈ l := by
    intro L k hex
    rcases hex with ⟨l, hl, hq⟩
    rcases List.mem_or_eq_of_mem_set hl with hmem | rfl
    · exact ⟨l, hmem, hq⟩
    · exact mem_getD_exists ((List.dropLast_sublist _).subset hq)
  rcases hoi : openIdx ps c with _ | i <;> rcases hci : closeIdx ps c with _ | j
  · simp only [stepChar, hoi, hci] at h
    exact Or.inl h
  · simp only [stepChar, hoi, hci] at h
    by_cases hlen : 0 < (σ.openStacks.getD j []).length
    · rw [if_pos hlen] at h
      rcases h with h | h
      · exact Or.inl (Or.inl (hpop _ _ h))
      · exact Or.inl (Or.inr h)
    · rw [if_neg hlen] at h
      rcases h with h | h
      · exact Or.inl (Or.inl h)
      · rcases hpush _ _ h with h2 | h2
        · exact Or.inl (Or.inr h2)
        · exact Or.inr h2
  · simp only [stepChar, hoi, hci] at h
    rcases h with h | h
    · rcases hpush _ _ h with h2 | h2
      · exact Or.inl (Or.inl h2)
      · exact Or.inr h2
    · exact Or.inl (Or.inr h)
  · simp only [stepChar, hoi, hci] at h
    by_cases heq : σ.openStacks.getD j [] = σ.openStacks.getD i []
    · rw [if_pos heq] at h
      by_cases hemp : (σ.openStacks.getD i []).isEmpty = true
      · rw [if_pos hemp] at h
        rcases h with h | h
        · rcases hpush _ _ h with h2 | h2
          · exact Or.inl (Or.inl h2)
          · exact Or.inr h2
        · exact Or.inl (Or.inr h)
      · rw [if_neg hemp] at h
        rcases h with h | h
        · exact Or.inl (Or.inl (hpop _ _ h))
        · exact Or.inl (Or.inr h)
    · rw [if_neg heq] at h
      rcases h with h | h
      · rcases hpush _ _ h with h2 | h2
        · exact Or.inl (Or.inl h2)
        · exact Or.inr h2
      · exact Or.inl (Or.inr h)

theorem memState_runEvents (ps : List (Char × Char)) :
    ∀ (es : List (Pos × Char)) (σ : ScanState) (q : Pos),
      memState q (runEvents (stepChar ps) σ es) →
        memState q σ ∨ ∃ e ∈ es, q = e.1 := by
  intro es
  induction es with
  | nil =>
    intro σ q h
    exact Or.inl h
  | cons e es ih =>
    intro σ q h
    rcases ih (stepChar ps σ e.1 e.2) q h with h2 | h2
    · rcases memState_step ps σ e.1 e.2 q h2 with h3 | h3
      · exact Or.inl h3
      · exact Or.inr ⟨e, List.mem_cons_self _ _, h3⟩
    · rcases h2 with ⟨e', he', hq⟩
      exact Or.inr ⟨e', List.mem_cons_of_mem _ he', hq⟩

theorem runEvents_equivariant {g : Pos → Pos} {P : Pos → Prop}
    (hg : ∀ p q, P p → P q → g p = g q → p = q) (ps : List (Char × Char)) :
    ∀ (es : List (Pos × Char)) (σ : ScanState),
      (∀ q, memState q σ → P q) → (∀ e ∈ es, P e.1) →
      runEvents (stepChar ps) (mapState g σ) (mapEvents g es) =
        mapState g (runEvents (stepChar ps) σ es) := by
  intro es
  induction es with
  | nil =>
    intro σ _ _
    rfl
  | cons e es ih =>
    intro σ hσ he
    have hstep : stepChar ps (mapState g σ) (g e.1) e.2 =
        mapState g (stepChar ps σ e.1 e.2) :=
      stepChar_equivariant hg ps σ e.1 e.2 hσ (he e (List.mem_cons_self _ _))
    have hσ2 : ∀ q, memState q (stepChar ps σ e.1 e.2) → P q := by
      intro q hq
      rcases memState_step ps σ e.1 e.2 q hq with h2 | h2
      · exact hσ q h2
      · exact h2 ▸ he e (List.mem_cons_self _ _)
    rw [mapEvents, List.map_cons, runEvents]
    rw [show ((fun e : Pos × Char => (g e.1, e.2)) e).1 = g e.1 from rfl,
      show ((fun e : Pos × Char => (g e.1, e.2)) e).2 = e.2 from rfl]
    rw [hstep]
    exact ih (stepChar ps σ e.1 e.2) hσ2
      (fun e' he' => he e' (List.mem_cons_of_mem _ he'))

theorem mapState_id {g : Pos → Pos} {σ : ScanState}
    (h : ∀ q, memState q σ → g q = q) : mapState g σ = σ := by
  have hmap : ∀ (L : List (List Pos)),
      (∀ l ∈ L, ∀ q ∈ l, g q = q) → L.map (List.map g) = L := by
    intro L hL
    rw [show L.map (List.map g) = L.map id from
      List.map_congr_left fun l hl => by
        rw [show List.map g l = List.map id l from
          List.map_congr_left fun q hq => hL l hl q hq, List.map_id, id]]
    exact List.map_id L
  rcases σ with ⟨os, cl⟩
  rw [mapState]
  have h1 : os.map (List.map g) = os :=
    hmap os (fun l hl q hq => h q (Or.inl ⟨l, hl, hq⟩))
  have h2 : cl.map (List.map g) = cl :=
    hmap cl (fun l hl q hq => h q (Or.inr ⟨l, hl, hq⟩))
  rw [show (⟨os, cl⟩ : ScanState).openStacks = os from rfl,
    show (⟨os, cl⟩ : ScanState).closeLists = cl from rfl, h1, h2]

theorem mapEvents_fix {g : Pos → Pos} (es : List (Pos × Char))
    (h : ∀ e ∈ es, g e.1 = e.1) : mapEvents g es = es := by
  rw [mapEvents,
    show es.map (fun e => (g e.1, e.2)) = es.map id from
      List.map_congr_left fun e he => by rw [h e he, id, Prod.mk.eta]]
  exact List.map_id es

theorem shiftPos_fix {i j : Nat} {p : Pos} (h : p.1 ≠ i ∨ p.2 ≤ j) :
    shiftPos i j p = p := by
  rw [shiftPos, if_neg]
  rintro ⟨h1, h2⟩
  rcases h with h | h
  · exact h h1
  · omega

theorem shiftPos_inj {i j : Nat} (p q : Pos) (hp : p ≠ (i, j))
    (hq : q ≠ (i, j)) (h : shiftPos i j p = shiftPos i j q) : p = q := by
  rcases p with ⟨p1, p2⟩
  rcases q with ⟨q1, q2⟩
  simp only [ne_eq, Prod.mk.injEq, not_and] at hp hq
  unfold shiftPos at h
  split_ifs at h with c1 c2 c3
  all_goals simp only [Prod.mk.injEq] at h ⊢
  all_goals omega

theorem mapEvents_cons (g : Pos → Pos) (e : Pos × Char)
    (es : List (Pos × Char)) :
    mapEvents g (e :: es) = (g e.1, e.2) :: mapEvents g es := rfl

theorem lineEvents_shift (i j : Nat) :
    ∀ (b : List Char) (col : Nat), j ≤ col + 1 →
      mapEvents (shiftPos i j) (lineEvents i (col + 1) b) =
        lineEvents i col b := by
  intro b
  induction b with
  | nil =>
    intro col _
    rfl
  | cons c b ih =>
    intro col hcol
    rw [lineEvents, lineEvents, mapEvents_cons]
    have hsh : shiftPos i j (i, col + 1 + 1) = (i, col + 1) := by
      rw [shiftPos, if_pos ⟨rfl, by omega⟩]
      rfl
    rw [hsh]
    exact congrArg _ (ih (col + 1) (by omega))

theorem lineEvents_mem_ub (ln : Nat) :
    ∀ (cs : List Char) (col : Nat) (e : Pos × Char),
      e ∈ lineEvents ln col cs → e.1.2 ≤ col + cs.length := by
  intro cs
  induction cs with
  | nil =>
    intro col e he
    simp [lineEvents] at he
  | cons c cs ih =>
    intro col e he
    rcases List.mem_cons.mp he with rfl | he
    · simp only [List.length_cons]
      omega
    · have h2 := ih (col + 1) e he
      simp only [List.length_cons]
      omega

theorem fileEvents_decomp (pre : List (List Char)) (l : List Char)
    (post : List (List Char)) :
    fileEvents 0 (pre ++ l :: post) =
      fileEvents 0 pre ++ (lineEvents (pre.length + 1) 0 l ++
        fileEvents (pre.length + 1) post) := by
  rw [fileEvents_append, fileEvents, Nat.zero_add]

theorem idxGet_map (g : Pos → Pos) (L : List (List Pos)) (oi : Option Nat) :
    idxGet (L.map (List.map g)) oi = (idxGet L oi).map g := by
  cases oi with
  | none => rfl
  | some i =>
    simp only [idxGet]
    exact getD_map g L i

/-- C5 counterexample: deleting the character `'a'` — which matches no
configured symbol of the pair set `{('{', '}')}` — changes the scan result:
the open brace is recorded at column 2 with the `'a'` present and at column 1
without it. -/
theorem braces_c5_counterexample :
    check_file [['a', '{']] [('{', '}')] ≠ check_file [['{']] [('{', '}')] := by
  decide

/-- C5 amended: deleting a character that matches no open or close symbol of
any configured pair leaves the scan result unchanged *except* that recorded
positions on the deleted character's line strictly to its right shift left by
one column (`shiftPos`); in particular the matched/unmatched classification
of every symbol occurrence is unaffected, and the result is literally
unchanged whenever no position to the right on that line is recorded.  The
deleted character sits at line `pre.length + 1`, column `a.length + 1`. -/
theorem braces_c5_shift (ps : List (Char × Char)) (pre post : List (List Char))
    (a b : List Char) (x : Char) (hx1 : openIdx ps x = none)
    (hx2 : closeIdx ps x = none) :
    check_file (pre ++ (a ++ b) :: post) ps =
      mapResult (shiftPos (pre.length + 1) (a.length + 1))
        (check_file (pre ++ (a ++ x :: b) :: post) ps) := by
  have hg_inj : ∀ p q : Pos, p ≠ ((pre.length + 1, a.length + 1) : Pos) →
      q ≠ ((pre.length + 1, a.length + 1) : Pos) →
      shiftPos (pre.length + 1) (a.length + 1) p =
        shiftPos (pre.length + 1) (a.length + 1) q → p = q :=
    fun p q hp hq => shiftPos_inj p q hp hq
  have hσ0 : ∀ q : Pos, memState q (initState ps.length) → False := by
    intro q hq
    rcases hq with ⟨l, hl, hql⟩ | ⟨l, hl, hql⟩ <;>
      · rw [List.eq_of_mem_replicate hl] at hql
        exact absurd hql (List.not_mem_nil q)
  have hfixE0 : ∀ e ∈ fileEvents 0 pre,
      shiftPos (pre.length + 1) (a.length + 1) e.1 = e.1 := by
    intro e he
    have h2 := fileEvents_mem pre 0 e he
    exact shiftPos_fix (Or.inl (by omega))
  have hfixEA : ∀ e ∈ lineEvents (pre.length + 1) 0 a,
      shiftPos (pre.length + 1) (a.length + 1) e.1 = e.1 := by
    intro e he
    have h2 := lineEvents_mem_ub (pre.length + 1) a 0 e he
    exact shiftPos_fix (Or.inr (by omega))
  have hfixEP : ∀ e ∈ fileEvents (pre.length + 1) post,
      shiftPos (pre.length + 1) (a.length + 1) e.1 = e.1 := by
    intro e he
    have h2 := fileEvents_mem post (pre.length + 1) e he
    exact shiftPos_fix (Or.inl (by omega))
  have hP_EB : ∀ e ∈ lineEvents (pre.length + 1) (a.length + 1) b,
      e.1 ≠ ((pre.length + 1, a.length + 1) : Pos) := by
    intro e he hcontra
    have h2 := lineEvents_mem (pre.length + 1) b (a.length + 1) e he
    have h3 := congrArg Prod.snd hcontra
    simp only at h3
    omega
  have hP_EP : ∀ e ∈ fileEvents (pre.length + 1) post,
      e.1 ≠ ((pre.length + 1, a.length + 1) : Pos) := by
    intro e he hcontra
    have h2 := fileEvents_mem post (pre.length + 1) e he
    have h3 := congrArg Prod.fst hcontra
    simp only at h3
    omega
  have hσ1mem : ∀ q : Pos,
      memState q (runEvents (stepChar ps)
        (runEvents (stepChar ps) (initState ps.length) (fileEvents 0 pre))
        (lineEvents (pre.length + 1) 0 a)) →
      (∃ e ∈ fileEvents 0 pre, q = e.1) ∨
        ∃ e ∈ lineEvents (pre.length + 1) 0 a, q = e.1 := by
    intro q hq
    rcases memState_runEvents ps _ _ q hq with h2 | h2
    · rcases memState_runEvents ps _ _ q h2 with h3 | h3
      · exact absurd h3 (hσ0 q)
      · exact Or.inl h3
    · exact Or.inr h2
  have hσ1fix : mapState (shiftPos (pre.length + 1) (a.length + 1))
      (runEvents (stepChar ps)
        (runEvents (stepChar ps) (initState ps.length) (fileEvents 0 pre))
        (lineEvents (pre.length + 1) 0 a)) =
      runEvents (stepChar ps)
        (runEvents (stepChar ps) (initState ps.length) (fileEvents 0 pre))
        (lineEvents (pre.length + 1) 0 a) := by
    apply mapState_id
    intro q hq
    rcases hσ1mem q hq with ⟨e, he, rfl⟩ | ⟨e, he, rfl⟩
    · exact hfixE0 e he
    · exact hfixEA e he
  have hσ1P : ∀ q : Pos,
      memState q (runEvents (stepChar ps)
        (runEvents (stepChar ps) (initState ps.length) (fileEvents 0 pre))
        (lineEvents (pre.length + 1) 0 a)) →
      q ≠ ((pre.length + 1, a.length + 1) : Pos) := by
    intro q hq hcontra
    rcases hσ1mem q hq with ⟨e, he, rfl⟩ | ⟨e, he, rfl⟩
    · have h2 := fileEvents_mem pre 0 e he
      have h3 := congrArg Prod.fst hcontra
      simp only at h3
      omega
    · have h2 := lineEvents_mem_ub (pre.length + 1) a 0 e he
      have h3 := congrArg Prod.snd hcontra
      simp only at h3
      omega
  have horig : runEvents (stepChar ps) (initState ps.length)
      (fileEvents 0 (pre ++ (a ++ x :: b) :: post)) =
      runEvents (stepChar ps)
        (runEvents (stepChar ps)
          (runEvents (stepChar ps)
            (runEvents (stepChar ps) (initState ps.length) (fileEvents 0 pre))
            (lineEvents (pre.length + 1) 0 a))
          (lineEvents (pre.length + 1) (a.length + 1) b))
        (fileEvents (pre.length + 1) post) := by
    rw [fileEvents_decomp, lineEvents_append, Nat.zero_add, lineEvents]
    rw [runEvents_append, runEvents_append, runEvents_append]
    rw [runEvents]
    rw [stepChar_irrelevant ps _ _ x hx1 hx2]
  have hdel : runEvents (stepChar ps) (initState ps.length)
      (fileEvents 0 (pre ++ (a ++ b) :: post)) =
      runEvents (stepChar ps)
        (runEvents (stepChar ps)
          (runEvents (stepChar ps)
            (runEvents (stepChar ps) (initState ps.length) (fileEvents 0 pre))
            (lineEvents (pre.length + 1) 0 a))
          (mapEvents (shiftPos (pre.length + 1) (a.length + 1))
            (lineEvents (pre.length + 1) (a.length + 1) b)))
        (fileEvents (pre.length + 1) post) := by
    rw [fileEvents_decomp, lineEvents_append, Nat.zero_add]
    rw [lineEvents_shift (pre.length + 1) (a.length + 1) b a.length
      (Nat.le_refl _)]
    rw [runEvents_append, runEvents_append, runEvents_append]
  have hclaimA : runEvents (stepChar ps)
      (runEvents (stepChar ps)
        (runEvents (stepChar ps) (initState ps.length) (fileEvents 0 pre))
        (lineEvents (pre.length + 1) 0 a))
      (mapEvents (shiftPos (pre.length + 1) (a.length + 1))
        (lineEvents (pre.length + 1) (a.length + 1) b)) =
      mapState (shiftPos (pre.length + 1) (a.length + 1))
        (runEvents (stepChar ps)
          (runEvents (stepChar ps)
            (runEvents (stepChar ps) (initState ps.length) (fileEvents 0 pre))
            (lineEvents (pre.length + 1) 0 a))
          (lineEvents (pre.length + 1) (a.length + 1) b)) := by
    conv =>
      lhs
      rw [← hσ1fix]
    exact runEvents_equivariant hg_inj ps _ _ hσ1P hP_EB
  have hσ2P : ∀ q : Pos,
      memState q (runEvents (stepChar ps)
        (runEvents (stepChar ps)
          (runEvents (stepChar ps) (initState ps.length) (fileEvents 0 pre))
          (lineEvents (pre.length + 1) 0 a))
        (lineEvents (pre.length + 1) (a.length + 1) b)) →
      q ≠ ((pre.length + 1, a.length + 1) : Pos) := by
    intro q hq
    rcases memState_runEvents ps _ _ q hq with h2 | h2
    · exact hσ1P q h2
    · rcases h2 with ⟨e, he, rfl⟩
      exact hP_EB e he
  have hclaimB : runEvents (stepChar ps)
      (mapState (shiftPos (pre.length + 1) (a.length + 1))
        (runEvents (stepChar ps)
          (runEvents (stepChar ps)
            (runEvents (stepChar ps) (initState ps.length) (fileEvents 0 pre))
            (lineEvents (pre.length + 1) 0 a))
          (lineEvents (pre.length + 1) (a.length + 1) b)))
      (fileEvents (pre.length + 1) post) =
      mapState (shiftPos (pre.length + 1) (a.length + 1))
        (runEvents (stepChar ps)
          (runEvents (stepChar ps)
            (runEvents (stepChar ps)
              (runEvents (stepChar ps) (initState ps.length)
                (fileEvents 0 pre))
              (lineEvents (pre.length + 1) 0 a))
            (lineEvents (pre.length + 1) (a.length + 1) b))
        (fileEvents (pre.length + 1) post)) := by
    conv =>
      lhs
      rw [← mapEvents_fix (fileEvents (pre.length + 1) post) hfixEP]
    exact runEvents_equivariant hg_inj ps _ _ hσ2P hP_EP
  have hfinal : runEvents (stepChar ps) (initState ps.length)
      (fileEvents 0 (pre ++ (a ++ b) :: post)) =
      mapState (shiftPos (pre.length + 1) (a.length + 1))
        (runEvents (stepChar ps) (initState ps.length)
          (fileEvents 0 (pre ++ (a ++ x :: b) :: post))) := by
    rw [hdel, horig, hclaimA, hclaimB]
  unfold check_file
  rw [scanLines_eq_runEvents, scanLines_eq_runEvents, hfinal, mapResult,
    List.map_map]
  apply List.map_congr_left
  intro pr _
  have hos : (mapState (shiftPos (pre.length + 1) (a.length + 1))
      (runEvents (stepChar ps) (initState ps.length)
        (fileEvents 0 (pre ++ (a ++ x :: b) :: post)))).openStacks =
      (runEvents (stepChar ps) (initState ps.length)
        (fileEvents 0 (pre ++ (a ++ x :: b) :: post))).openStacks.map
        (List.map (shiftPos (pre.length + 1) (a.length + 1))) := rfl
  have hcs : (mapState (shiftPos (pre.length + 1) (a.length + 1))
      (runEvents (stepChar ps) (initState ps.length)
        (fileEvents 0 (pre ++ (a ++ x :: b) :: post)))).closeLists =
      (runEvents (stepChar ps) (initState ps.length)
        (fileEvents 0 (pre ++ (a ++ x :: b) :: post))).closeLists.map
        (List.map (shiftPos (pre.length + 1) (a.length + 1))) := rfl
  rw [hos, hcs, idxGet_map, idxGet_map]
  rfl

/-- Witness for C5 (amended): deleting the irrelevant `'a'` in line `"a{"`
yields the scan of `"{"` once the recorded column is shifted. -/
theorem braces_c5_witness :
    check_file [['{']] [('{', '}')] =
      mapResult (shiftPos 1 1) (check_file [['a', '{']] [('{', '}')]) :=
  braces_c5_shift [('{', '}')] [] [] [] ['{'] 'a' (by decide) (by decide)

end FindUnmatched
